import Mathlib

/-!
LiveCache of `src/index.js`: tree mirror, snapshot generator, output cache

A shallow embedding of the `LiveCache` class and of the `/delete/:filename`
guard of `src/index.js`, followed by the properties proved about them.

Modelling conventions.

* A JavaScript number that the code stores as a timestamp is either a finite
  value or `-Infinity` (the value of `Math.max()` with no argument).  The code
  only compares timestamps and takes the sign of a difference, so finite values
  are represented by integers (milliseconds).
* `null` is `Option.none`.
* A plain JavaScript object used as a dictionary (`contents`) is an association
  list kept in the enumeration order of `Object.keys`: array-index keys in
  ascending numeric order first, then the other keys in creation order.
  Path components are assumed to differ from `__proto__`.
* A thrown `TypeError` is `Except.error`.
-/

namespace LiveCache

/-! ## Values -/

/-- A JavaScript number as stored in a timestamp: finite, or `-Infinity`. -/
inductive JSNum where
  | negInf : JSNum
  | fin (v : Int) : JSNum
  deriving DecidableEq, Repr

/-- A timestamp slot of a node or record: a number or `null`. -/
abbrev Timestamp := Option JSNum

/-- The `stats` object handed over by the watcher: `ctimeMs`, `mtimeMs`
(either may be `null`) and `size`. -/
structure Stats where
  ctimeMs : Option Int
  mtimeMs : Option Int
  size : Nat
  deriving DecidableEq, Repr

/-- A node of the mirror (`rootContent` and everything below it). -/
inductive Node where
  | file (path : String) (timestamp : Timestamp) (size : Nat) : Node
  | folder (path : String) (contents : List (String × Node)) (timestamp : Timestamp) : Node

/-- A record of the snapshot built by `_getContentRecursive`. -/
inductive Rec where
  | file (name : String) (path : String) (timestamp : Timestamp) : Rec
  | folder (name : Option String) (path : String) (contents : List Rec)
      (timestamp : Timestamp) : Rec

/-- The `timestamp` property of a snapshot record. -/
def Rec.timestamp : Rec → Timestamp
  | .file _ _ ts => ts
  | .folder _ _ _ ts => ts

/-- The `contents` property of a snapshot record (absent on a file record). -/
def Rec.contents : Rec → List Rec
  | .file .. => []
  | .folder _ _ cs _ => cs

/-! ## Snapshot generation -/

/-- Sign of the JavaScript difference `x - y` as `Array.prototype.sort` reads
it: `-Infinity - -Infinity` is `NaN`, which `sort` treats as `0`. -/
def JSNum.subSign : JSNum → JSNum → Int
  | .negInf, .negInf => 0
  | .negInf, .fin _ => -1
  | .fin _, .negInf => 1
  | .fin x, .fin y => x - y

/-- The comparator passed to `contents.sort` in `_getContentRecursive`. -/
def compareFn (a b : Rec) : Int :=
  match a.timestamp with
  | none => 1
  | some ta =>
    match b.timestamp with
    | none => -1
    | some tb => JSNum.subSign tb ta

/-- Insertion step of the stable sort: `x` goes after every leading element
that the comparator does not place after it. -/
def sortInsert (cmp : Rec → Rec → Int) (x : Rec) : List Rec → List Rec
  | [] => [x]
  | y :: ys => if cmp x y < 0 then x :: y :: ys else y :: sortInsert cmp x ys

/-- `Array.prototype.sort(cmp)`: a stable sort (ECMAScript 2019), modelled as
the stable insertion sort that takes the elements from left to right.  On an
array on which `cmp` is a consistent comparator every stable sort returns this
list.  `compareFn` is consistent unless two elements have a `null` timestamp;
there ECMAScript leaves the order to the implementation and the model returns
the order of the insertion sort. -/
def jsSort (cmp : Rec → Rec → Int) (xs : List Rec) : List Rec :=
  xs.foldl (fun acc x => sortInsert cmp x acc) []

mutual
/-- Method `_getContentRecursive(baseFolderName, baseFolderContent)`.  It is
only ever called on a folder node. -/
def getContentRecursive (orderByTime : Bool) (baseFolderName : Option String) :
    Node → Option Rec
  | .file _ _ _ => none
  | .folder path contents timestamp =>
    match contents with
    | [] => none
    | c :: cs =>
      let mapped := mapFilter orderByTime (c :: cs)
      some (.folder baseFolderName path
        (if orderByTime then jsSort compareFn mapped else mapped) timestamp)
/-- The `contentNames.map(...).filter(x => x != null)` part of
`_getContentRecursive`. -/
def mapFilter (orderByTime : Bool) : List (String × Node) → List Rec
  | [] => []
  | (contentName, content) :: rest =>
    match content with
    | .file path timestamp _ => .file contentName path timestamp :: mapFilter orderByTime rest
    | .folder p cs ts =>
      match getContentRecursive orderByTime (some contentName) (.folder p cs ts) with
      | none => mapFilter orderByTime rest
      | some r => r :: mapFilter orderByTime rest
end

/-! ## The `contents` dictionary -/

/-- Array-index reading of a property key: the canonical decimal string of an
integer below `2^32 - 1`.  Such keys are enumerated first, in numeric order. -/
def arrayIndex (key : String) : Option Nat :=
  let cs := key.toList
  if cs.all Char.isDigit && !cs.isEmpty && (cs.length == 1 || cs.head? != some '0') then
    let v := cs.foldl (fun n c => 10 * n + (c.toNat - 48)) 0
    if v < 4294967295 then some v else none
  else none

/-- Property read `contents[key]` (`none` is `undefined`). -/
def lookupKey : List (String × Node) → String → Option Node
  | [], _ => none
  | (k, v) :: rest, key => if k = key then some v else lookupKey rest key

/-- Assignment to an existing own property: the value changes, the position in
the enumeration order does not. -/
def replaceKey (key : String) (v : Node) : List (String × Node) → List (String × Node)
  | [] => []
  | (k, w) :: rest => if k = key then (k, v) :: rest else (k, w) :: replaceKey key v rest

/-- Creation of an array-index property with index `i`: it is enumerated after
the array-index keys below it and before everything else. -/
def insertIndexKey (i : Nat) (key : String) (v : Node) :
    List (String × Node) → List (String × Node)
  | [] => [(key, v)]
  | (k, w) :: rest =>
    match arrayIndex k with
    | some j => if j < i then (k, w) :: insertIndexKey i key v rest else (key, v) :: (k, w) :: rest
    | none => (key, v) :: (k, w) :: rest

/-- Assignment `contents[key] = v`. -/
def setKey (key : String) (v : Node) (contents : List (String × Node)) :
    List (String × Node) :=
  match lookupKey contents key with
  | some _ => replaceKey key v contents
  | none =>
    match arrayIndex key with
    | some i => insertIndexKey i key v contents
    | none => contents ++ [(key, v)]

/-- Statement `delete contents[key]`. -/
def deleteKey (key : String) : List (String × Node) → List (String × Node)
  | [] => []
  | (k, w) :: rest => if k = key then deleteKey key rest else (k, w) :: deleteKey key rest

/-! ## The tree mirror -/

/-- The only exception the mirror operations raise. -/
inductive JSError where
  | typeError : JSError
  deriving DecidableEq, Repr

/-- `String.prototype.split(sep)` on the characters of a string. -/
def splitChars (sep : Char) : List Char → List (List Char)
  | [] => [[]]
  | c :: cs =>
    if c = sep then [] :: splitChars sep cs
    else
      match splitChars sep cs with
      | [] => [[c]]
      | w :: ws => (c :: w) :: ws

/-- Function `splitPath` (with `path.sep = "/"`). -/
def splitPath (pathStr : String) : List String :=
  if pathStr = "" then [] else (splitChars '/' pathStr.toList).map String.mk

/-- `Math.max(...xs)`: `-Infinity` for no argument. -/
def mathMax : List Int → JSNum
  | [] => .negInf
  | x :: xs =>
    match mathMax xs with
    | .negInf => .fin x
    | .fin y => .fin (max x y)

/-- `Math.max(...[stats.ctimeMs, stats.mtimeMs].filter(x => (x != null)))`. -/
def statsTimestamp (stats : Stats) : JSNum :=
  mathMax ([stats.ctimeMs, stats.mtimeMs].filterMap id)

/-- The walk `currentDir = currentDir.contents[pathParts[index]]` over the
ancestor components `dirs`, followed by the statement `op` on
`currentDir.contents`.  The mirror is mutated in place, so every folder on the
way keeps its position and its other children.  Reading `.contents` of
`undefined`, or a property of the `undefined` `.contents` of a file, throws. -/
def updateAt (op : List (String × Node) → List (String × Node)) :
    Node → List String → Except JSError Node
  | .file _ _ _, _ => .error .typeError
  | .folder path contents timestamp, [] => .ok (.folder path (op contents) timestamp)
  | .folder path contents timestamp, k :: ks =>
    match lookupKey contents k with
    | none => .error .typeError
    | some child =>
      match updateAt op child ks with
      | .error e => .error e
      | .ok child1 => .ok (.folder path (replaceKey k child1 contents) timestamp)

/-- The key `pathParts[partCount-1]` (the property key `undefined` when there is
no part). -/
def lastPart (pathParts : List String) : String :=
  pathParts.getLast?.getD "undefined"

/-- Assignment `rootContent["timestamp"] = ts`. -/
def Node.setTimestamp (ts : Timestamp) : Node → Node
  | .file path _ size => .file path ts size
  | .folder path contents _ => .folder path contents ts

/-- Function `addFolderToCache(pathStr, stats)` acting on `rootContent`. -/
def addFolderToCache (rootContent : Node) (pathStr : String) (stats : Stats) :
    Except JSError Node :=
  if pathStr = "" then
    .ok (rootContent.setTimestamp (some (statsTimestamp stats)))
  else
    let pathParts := splitPath pathStr
    updateAt (setKey (lastPart pathParts) (.folder pathStr [] (some (statsTimestamp stats))))
      rootContent pathParts.dropLast

/-- Function `addFileToCache(pathStr, stats)` acting on `rootContent`. -/
def addFileToCache (rootContent : Node) (pathStr : String) (stats : Stats) :
    Except JSError Node :=
  if pathStr = "" then
    .ok rootContent
  else
    let pathParts := splitPath pathStr
    updateAt (setKey (lastPart pathParts) (.file pathStr (some (statsTimestamp stats)) stats.size))
      rootContent pathParts.dropLast

/-- Function `removeFromCache(pathStr)` acting on `rootContent`. -/
def removeFromCache (rootContent : Node) (pathStr : String) : Except JSError Node :=
  if pathStr = "" then
    .ok rootContent
  else
    let pathParts := splitPath pathStr
    updateAt (deleteKey (lastPart pathParts)) rootContent pathParts.dropLast

/-- The node a list of path components identifies, walking own properties down
from a node (`none` when no node is there). -/
def resolve : Node → List String → Option Node
  | n, [] => some n
  | .file _ _ _, _ :: _ => none
  | .folder _ contents _, k :: ks =>
    match lookupKey contents k with
    | none => none
    | some child => resolve child ks

/-! ## The output cache -/

/-- The mutable state of a `LiveCache` object; `ready` records that the
watcher's `ready` event has resolved `contentPrepPromise`. -/
structure State where
  orderByTime : Bool
  rootContent : Node
  ready : Bool
  contentOutputJSON : Option Rec
  contentOutputMD5 : Option String

/-- The state the constructor leaves. -/
def State.initial (orderByTime : Bool) : State :=
  { orderByTime := orderByTime
    rootContent := .folder "" [] none
    ready := false
    contentOutputJSON := none
    contentOutputMD5 := none }

/-- Method `_invalidateOutputCache()`. -/
def invalidateOutputCache (s : State) : State :=
  { s with contentOutputJSON := none, contentOutputMD5 := none }

/-- The watcher notifications the constructor subscribes to. -/
inductive Event where
  | add (path : String) (stats : Stats) : Event
  | change (path : String) (stats : Stats) : Event
  | unlink (path : String) : Event
  | addDir (path : String) (stats : Stats) : Event
  | unlinkDir (path : String) : Event
  | ready : Event
  | error : Event

/-- The mirror operation an event handler runs after it has invalidated the
cache. -/
def Event.mutate (rootContent : Node) : Event → Except JSError Node
  | .add path stats => addFileToCache rootContent path stats
  | .change path stats => addFileToCache rootContent path stats
  | .unlink path => removeFromCache rootContent path
  | .addDir path stats => addFolderToCache rootContent path stats
  | .unlinkDir path => removeFromCache rootContent path
  | .ready => .ok rootContent
  | .error => .ok rootContent

/-- One watcher event handler.  The handlers for the five mutations invalidate
first and mutate second; when the mutation throws, the mirror has not been
touched and the cache stays invalidated. -/
def handleEvent (s : State) (e : Event) : State :=
  match e with
  | .ready => { s with ready := true }
  | .error => s
  | _ =>
    let s1 := invalidateOutputCache s
    match e.mutate s1.rootContent with
    | .ok root1 => { s1 with rootContent := root1 }
    | .error _ => s1

/-- The callback of `prepContentOutput()`, which runs once `contentPrepPromise`
is resolved: the state it leaves and the pair it returns.  `digest x` stands for
`crypto.createHash('md5').update(JSON.stringify(x)).digest("hex")`. -/
def prepContentOutput (digest : Option Rec → String) (s : State) :
    State × (Option Rec × Option String) :=
  match s.contentOutputMD5 with
  | none =>
    let json := getContentRecursive s.orderByTime none s.rootContent
    let md5 := some (digest json)
    ({ s with contentOutputJSON := json, contentOutputMD5 := md5 }, (json, md5))
  | some md5 => (s, (s.contentOutputJSON, some md5))

/-- What can happen to a `LiveCache` object: a watcher event, or the callback of
a `prepContentOutput()` call. -/
inductive Action where
  | event (e : Event) : Action
  | prep : Action

/-- One step of the object; the callback of `prepContentOutput` only runs after
readiness. -/
def step (digest : Option Rec → String) (s : State) : Action → State
  | .event e => handleEvent s e
  | .prep => if s.ready then (prepContentOutput digest s).1 else s

/-- The state after a sequence of actions. -/
def run (digest : Option Rec → String) (s : State) (actions : List Action) : State :=
  actions.foldl (step digest) s

/-! ## The `/delete/:filename` handler -/

/-- The segment loop of Node's `normalizeString` for `/`-separated paths: empty
and `.` segments are dropped, `..` removes the segment before it, or is kept
when there is none and `allowAboveRoot` holds.  `acc` is the result so far, last
segment first. -/
def normalizeSegments (allowAboveRoot : Bool) : List String → List String → List String
  | acc, [] => acc.reverse
  | acc, seg :: rest =>
    if seg = "" ∨ seg = "." then normalizeSegments allowAboveRoot acc rest
    else if seg = ".." then
      match acc with
      | top :: accRest =>
        if top = ".." then
          normalizeSegments allowAboveRoot (if allowAboveRoot then ".." :: acc else acc) rest
        else normalizeSegments allowAboveRoot accRest rest
      | [] => normalizeSegments allowAboveRoot (if allowAboveRoot then [".."] else []) rest
    else normalizeSegments allowAboveRoot (seg :: acc) rest

/-- Node's `path.normalize` on POSIX. -/
def pathNormalize (path : String) : String :=
  if path = "" then "."
  else
    let isAbsolute := path.toList.head? = some '/'
    let trailingSeparator := path.toList.getLast? = some '/'
    let segs := normalizeSegments (!isAbsolute) []
      ((splitChars '/' path.toList).map String.mk)
    let body := String.intercalate "/" segs
    if body = "" then
      if isAbsolute then "/" else if trailingSeparator then "./" else "."
    else
      let body1 := if trailingSeparator then body ++ "/" else body
      if isAbsolute then "/" ++ body1 else body1

/-- Node's `path.join` on POSIX: the non-empty arguments joined by `/`, then
normalized. -/
def pathJoin (args : List String) : String :=
  match args.filter (fun a => a ≠ "") with
  | [] => "."
  | parts => pathNormalize (String.intercalate "/" parts)

/-- `String.prototype.startsWith`. -/
def startsWith (s searchString : String) : Bool :=
  searchString.toList.isPrefixOf s.toList

/-- The handler of `GET /delete/:filename`, from the decoded `filename` and the
resolved files folder: the path handed to `fs.unlinkSync`, or `none` when the
request is refused. -/
def deleteTarget (allowDeletion : Bool) (filesFolderFullPath filename : String) :
    Option String :=
  if allowDeletion then
    let fileFullPath := pathJoin [filesFolderFullPath, filename]
    if fileFullPath ≠ filesFolderFullPath ∧ startsWith fileFullPath filesFolderFullPath then
      some fileFullPath
    else none
  else none

/-- The non-empty components of a `/`-separated path. -/
def components (path : String) : List String :=
  ((splitChars '/' path.toList).map String.mk).filter (fun s => s ≠ "")

/-- Whether `path` lies strictly inside the directory `dir`: the components of
`dir` are a proper initial part of those of `path`. -/
def liesStrictlyInside (dir path : String) : Bool :=
  (components dir).isPrefixOf (components path) && (components dir).length < (components path).length

/-! ## Auxiliary notions used in the statements -/

/-- The record one child contributes to its parent's `contents` (`none` when the
child is filtered out). -/
def toRecord (orderByTime : Bool) (contentName : String) : Node → Option Rec
  | .file path timestamp _ => some (.file contentName path timestamp)
  | .folder p cs ts => getContentRecursive orderByTime (some contentName) (.folder p cs ts)

/-- Order of JavaScript numbers: `-Infinity` is below every finite value. -/
def JSNum.le : JSNum → JSNum → Bool
  | .negInf, _ => true
  | .fin _, .negInf => false
  | .fin x, .fin y => decide (x ≤ y)

/-- Record `a` may stand before record `b` in a listing that is descending by
timestamp with the `null` timestamps last. -/
def inTimeOrder (a b : Rec) : Prop :=
  match a.timestamp, b.timestamp with
  | _, none => True
  | none, some _ => False
  | some x, some y => JSNum.le y x = true

/-- The `timestamp` property of a mirror node. -/
def Node.timestamp : Node → Timestamp
  | .file _ ts _ => ts
  | .folder _ _ ts => ts

mutual
/-- Whether the subtree of a node contains a file. -/
def Node.hasFile : Node → Bool
  | .file _ _ _ => true
  | .folder _ contents _ => hasFileList contents
/-- Whether one of the listed children contains a file. -/
def hasFileList : List (String × Node) → Bool
  | [] => false
  | (_, c) :: rest => c.hasFile || hasFileList rest
end

/-! ## Lemmas -/

theorem mapFilter_eq_filterMap (obt : Bool) (l : List (String × Node)) :
    mapFilter obt l = l.filterMap (fun e => toRecord obt e.1 e.2) := by
  induction l with
  | nil => simp [mapFilter]
  | cons e rest ih =>
    obtain ⟨n, c⟩ := e
    rw [List.filterMap_cons, ← ih]
    cases c with
    | file p ts sz => simp only [mapFilter, toRecord]
    | folder p cs ts =>
      simp only [mapFilter, toRecord]
      cases h : getContentRecursive obt (some n) (.folder p cs ts) <;> rfl

theorem getContentRecursive_folder (obt : Bool) (name : Option String) (path : String)
    (cs : List (String × Node)) (ts : Timestamp) :
    getContentRecursive obt name (.folder path cs ts) =
      if cs.isEmpty then none
      else some (Rec.folder name path
        (if obt then jsSort compareFn (mapFilter obt cs) else mapFilter obt cs) ts) := by
  cases cs with
  | nil => simp [getContentRecursive]
  | cons c cs => simp [getContentRecursive]

theorem sortInsert_perm (cmp : Rec → Rec → Int) (x : Rec) (l : List Rec) :
    (sortInsert cmp x l).Perm (x :: l) := by
  induction l with
  | nil => simp [sortInsert]
  | cons y ys ih =>
    unfold sortInsert
    split
    · exact List.Perm.refl _
    · exact (List.Perm.cons y ih).trans (List.Perm.swap x y ys)

theorem foldl_sortInsert_perm (cmp : Rec → Rec → Int) (xs acc : List Rec) :
    (xs.foldl (fun acc x => sortInsert cmp x acc) acc).Perm (xs ++ acc) := by
  induction xs generalizing acc with
  | nil => simp
  | cons x xs ih =>
    simp only [List.foldl_cons]
    refine (ih _).trans ?_
    refine (List.Perm.append_left xs (sortInsert_perm cmp x acc)).trans ?_
    simp [List.perm_middle]

theorem jsSort_perm (cmp : Rec → Rec → Int) (xs : List Rec) : (jsSort cmp xs).Perm xs := by
  simpa [jsSort] using foldl_sortInsert_perm cmp xs []

theorem JSNum.le_trans {a b c : JSNum} (h1 : JSNum.le a b = true) (h2 : JSNum.le b c = true) :
    JSNum.le a c = true := by
  cases a <;> cases b <;> cases c <;> simp_all [JSNum.le]
  omega

theorem inTimeOrder_trans {a b c : Rec} (h1 : inTimeOrder a b) (h2 : inTimeOrder b c) :
    inTimeOrder a c := by
  unfold inTimeOrder at *
  cases ha : a.timestamp <;> cases hb : b.timestamp <;> cases hc : c.timestamp <;>
    simp_all
  exact JSNum.le_trans h2 h1

theorem inTimeOrder_of_compareFn_neg {x y : Rec} (h : compareFn x y < 0) : inTimeOrder x y := by
  unfold compareFn at h
  unfold inTimeOrder
  cases hx : x.timestamp with
  | none => simp [hx] at h
  | some tx =>
    cases hy : y.timestamp with
    | none => simp
    | some ty =>
      simp only [hx, hy] at h ⊢
      cases tx <;> cases ty <;> simp_all [JSNum.subSign, JSNum.le]
      omega

theorem inTimeOrder_of_compareFn_nonneg {x y : Rec} (h : ¬ compareFn x y < 0) :
    inTimeOrder y x := by
  unfold compareFn at h
  unfold inTimeOrder
  cases hx : x.timestamp with
  | none => simp
  | some tx =>
    cases hy : y.timestamp with
    | none => simp [hx, hy] at h
    | some ty =>
      simp only [hx, hy] at h ⊢
      cases tx <;> cases ty <;> simp_all [JSNum.subSign, JSNum.le]

theorem sortInsert_sorted (x : Rec) (l : List Rec) (h : l.Pairwise inTimeOrder) :
    (sortInsert compareFn x l).Pairwise inTimeOrder := by
  induction l with
  | nil => simp [sortInsert]
  | cons y ys ih =>
    rw [List.pairwise_cons] at h
    unfold sortInsert
    split
    · rename_i hlt
      have hxy := inTimeOrder_of_compareFn_neg hlt
      refine List.pairwise_cons.2 ⟨?_, List.pairwise_cons.2 h⟩
      intro z hz
      rcases List.mem_cons.1 hz with rfl | hz
      · exact hxy
      · exact inTimeOrder_trans hxy (h.1 z hz)
    · rename_i hge
      refine List.pairwise_cons.2 ⟨?_, ih h.2⟩
      intro z hz
      have hz1 : z ∈ x :: ys := (sortInsert_perm compareFn x ys).mem_iff.1 hz
      rcases List.mem_cons.1 hz1 with rfl | hz1
      · exact inTimeOrder_of_compareFn_nonneg hge
      · exact h.1 z hz1

theorem foldl_sortInsert_sorted (xs acc : List Rec) (h : acc.Pairwise inTimeOrder) :
    (xs.foldl (fun acc x => sortInsert compareFn x acc) acc).Pairwise inTimeOrder := by
  induction xs generalizing acc with
  | nil => simpa
  | cons x xs ih => exact ih _ (sortInsert_sorted x acc h)

theorem jsSort_sorted (xs : List Rec) : (jsSort compareFn xs).Pairwise inTimeOrder :=
  foldl_sortInsert_sorted xs [] List.Pairwise.nil

theorem coherent_step (digest : Option Rec → String) (s : State) (a : Action)
    (h : ∀ md5, s.contentOutputMD5 = some md5 →
      s.contentOutputJSON = getContentRecursive s.orderByTime none s.rootContent ∧
      md5 = digest (getContentRecursive s.orderByTime none s.rootContent)) :
    ∀ md5, (step digest s a).contentOutputMD5 = some md5 →
      (step digest s a).contentOutputJSON =
        getContentRecursive (step digest s a).orderByTime none (step digest s a).rootContent ∧
      md5 = digest (getContentRecursive (step digest s a).orderByTime none
        (step digest s a).rootContent) := by
  cases a with
  | event e =>
    cases e with
    | ready => exact h
    | error => exact h
    | add p st =>
      intro md5 hm
      simp only [step, handleEvent, invalidateOutputCache] at hm
      split at hm <;> simp at hm
    | change p st =>
      intro md5 hm
      simp only [step, handleEvent, invalidateOutputCache] at hm
      split at hm <;> simp at hm
    | unlink p =>
      intro md5 hm
      simp only [step, handleEvent, invalidateOutputCache] at hm
      split at hm <;> simp at hm
    | addDir p st =>
      intro md5 hm
      simp only [step, handleEvent, invalidateOutputCache] at hm
      split at hm <;> simp at hm
    | unlinkDir p =>
      intro md5 hm
      simp only [step, handleEvent, invalidateOutputCache] at hm
      split at hm <;> simp at hm
  | prep =>
    simp only [step]
    by_cases hr : s.ready = true
    · simp only [hr, if_true, prepContentOutput]
      cases hm : s.contentOutputMD5 with
      | none =>
        intro md5 h1
        simp at h1
        simp [h1]
      | some m => simpa [hm] using h
    · simpa [hr] using h

theorem coherent_run (digest : Option Rec → String) (s : State) (actions : List Action)
    (h : ∀ md5, s.contentOutputMD5 = some md5 →
      s.contentOutputJSON = getContentRecursive s.orderByTime none s.rootContent ∧
      md5 = digest (getContentRecursive s.orderByTime none s.rootContent)) :
    ∀ md5, (run digest s actions).contentOutputMD5 = some md5 →
      (run digest s actions).contentOutputJSON =
        getContentRecursive (run digest s actions).orderByTime none
          (run digest s actions).rootContent ∧
      md5 = digest (getContentRecursive (run digest s actions).orderByTime none
        (run digest s actions).rootContent) := by
  induction actions generalizing s with
  | nil => exact h
  | cons a rest ih => exact ih (step digest s a) (coherent_step digest s a h)

theorem coherent_initial (digest : Option Rec → String) (obt : Bool) (actions : List Action) :
    ∀ md5, (run digest (State.initial obt) actions).contentOutputMD5 = some md5 →
      (run digest (State.initial obt) actions).contentOutputJSON =
        getContentRecursive (run digest (State.initial obt) actions).orderByTime none
          (run digest (State.initial obt) actions).rootContent ∧
      md5 = digest (getContentRecursive (run digest (State.initial obt) actions).orderByTime none
        (run digest (State.initial obt) actions).rootContent) :=
  coherent_run digest _ actions (by intro md5 h; simp [State.initial] at h)

theorem prepContentOutput_of_coherent (digest : Option Rec → String) (s : State)
    (h : ∀ md5, s.contentOutputMD5 = some md5 →
      s.contentOutputJSON = getContentRecursive s.orderByTime none s.rootContent ∧
      md5 = digest (getContentRecursive s.orderByTime none s.rootContent)) :
    (prepContentOutput digest s).2 =
      (getContentRecursive s.orderByTime none s.rootContent,
        some (digest (getContentRecursive s.orderByTime none s.rootContent))) := by
  unfold prepContentOutput
  cases hm : s.contentOutputMD5 with
  | none => rfl
  | some m =>
    obtain ⟨h1, h2⟩ := h m hm
    simp [h1, h2]

/-- C2: in every state reached from the constructor's state by watcher events
and `prepContentOutput` callbacks, a non-null `contentOutputMD5` comes with
`_contentOutputJSON` equal to `_getContentRecursive(null, rootContent)` of the
current mirror and is the digest of that snapshot; so the pair returned by
`prepContentOutput` is the snapshot of the current mirror with its own digest. -/
theorem cache_coherence (digest : Option Rec → String) (orderByTime : Bool)
    (actions : List Action) :
    (∀ md5, (run digest (State.initial orderByTime) actions).contentOutputMD5 = some md5 →
      (run digest (State.initial orderByTime) actions).contentOutputJSON =
        getContentRecursive orderByTime none
          (run digest (State.initial orderByTime) actions).rootContent ∧
      md5 = digest (getContentRecursive orderByTime none
        (run digest (State.initial orderByTime) actions).rootContent)) ∧
    (prepContentOutput digest (run digest (State.initial orderByTime) actions)).2 =
      (getContentRecursive orderByTime none
          (run digest (State.initial orderByTime) actions).rootContent,
        some (digest (getContentRecursive orderByTime none
          (run digest (State.initial orderByTime) actions).rootContent))) := by
  have ho : ∀ (acts : List Action) (s : State),
      (run digest s acts).orderByTime = s.orderByTime := by
    intro acts
    induction acts with
    | nil => intro s; rfl
    | cons a rest ih =>
      intro s
      have : (step digest s a).orderByTime = s.orderByTime := by
        cases a with
        | event e =>
          cases e <;> simp only [step, handleEvent, invalidateOutputCache] <;>
            first | rfl | (split <;> rfl)
        | prep =>
          simp only [step, prepContentOutput]
          split
          · split <;> rfl
          · rfl
      exact (ih (step digest s a)).trans this
  have hc := coherent_initial digest orderByTime actions
  have hp := prepContentOutput_of_coherent digest _ hc
  rw [ho actions (State.initial orderByTime)] at hc hp
  exact ⟨hc, hp⟩

/-- Witness of C2: after `ready`, the arrival of a file and one
`prepContentOutput`, the fingerprint is set and the memoized snapshot is the
snapshot of the mirror. -/
theorem cache_coherence_witness :
    (run (fun _ => "d") (State.initial true)
        [.event .ready, .event (.add "f" ⟨some 1, some 2, 3⟩), .prep]).contentOutputMD5
      = some "d" ∧
    (run (fun _ => "d") (State.initial true)
        [.event .ready, .event (.add "f" ⟨some 1, some 2, 3⟩), .prep]).contentOutputJSON
      = getContentRecursive true none
          (run (fun _ => "d") (State.initial true)
            [.event .ready, .event (.add "f" ⟨some 1, some 2, 3⟩), .prep]).rootContent :=
  ⟨rfl, ((cache_coherence (fun _ => "d") true
    [.event .ready, .event (.add "f" ⟨some 1, some 2, 3⟩), .prep]).1 "d" rfl).1⟩

/-- C9, as stated, fails: for the mirror whose root has no children the callback
of `prepContentOutput` returns `null` as the snapshot, not a root Folder record
with an empty `contents`. -/
theorem empty_tree_snapshot_is_null :
    (prepContentOutput (fun _ => "d")
        { State.initial true with ready := true }).2.1 = none ∧
    ¬ ∃ name path ts, (prepContentOutput (fun _ => "d")
        { State.initial true with ready := true }).2.1 = some (Rec.folder name path [] ts) :=
  ⟨rfl, by
    rintro ⟨name, path, ts, h⟩
    have h0 : (prepContentOutput (fun _ => "d")
        { State.initial true with ready := true }).2.1 = none := rfl
    rw [h0] at h
    cases h⟩

/-- C9 amended: in every reachable state whose root folder has no children, the
pair returned by `prepContentOutput` is `null` together with the digest of
`null`. -/
theorem empty_tree_snapshot (digest : Option Rec → String) (orderByTime : Bool)
    (actions : List Action) (path : String) (ts : Timestamp)
    (h : (run digest (State.initial orderByTime) actions).rootContent = .folder path [] ts) :
    (prepContentOutput digest (run digest (State.initial orderByTime) actions)).2
      = (none, some (digest none)) := by
  have hp := prepContentOutput_of_coherent digest _
    (coherent_initial digest orderByTime actions)
  rw [hp, h]
  simp [getContentRecursive]

/-- Witness of the amended C9: the state right after `ready`. -/
theorem empty_tree_snapshot_witness :
    (prepContentOutput (fun _ => "d") (run (fun _ => "d") (State.initial true)
      [.event .ready])).2 = (none, some "d") :=
  empty_tree_snapshot (fun _ => "d") true [.event .ready] "" none rfl

theorem record_contents_perm (obt : Bool) (name : Option String) (path : String)
    (cs : List (String × Node)) (ts : Timestamp) (r : Rec)
    (h : getContentRecursive obt name (.folder path cs ts) = some r) :
    r.contents.Perm (mapFilter obt cs) := by
  rw [getContentRecursive_folder] at h
  split at h
  · cases h
  · cases obt with
    | false =>
      simp only [Bool.false_eq_true, if_false, Option.some.injEq] at h
      subst h
      exact List.Perm.refl _
    | true =>
      simp only [if_true, Option.some.injEq] at h
      subst h
      exact jsSort_perm _ _

/-- C1, as stated, fails: folder `a` holds only the empty folder `a/b`, so its
subtree contains no file, and yet the snapshot of the root lists a Folder record
for `a` (with an empty `contents`). -/
theorem elision_is_not_recursive :
    Node.hasFile (.folder "a" [("b", .folder "a/b" [] none)] none) = false ∧
    getContentRecursive true none
        (.folder "" [("a", .folder "a" [("b", .folder "a/b" [] none)] none)] none)
      = some (.folder none "" [.folder (some "a") "a" [] none] none) :=
  ⟨rfl, rfl⟩

/-- C1 amended: a folder yields no record exactly when its children mapping is
empty, so a folder without children never appears in its parent's `contents`,
while a folder that has a child, be it only an empty subfolder, does get a
Folder record under its own name, path and timestamp.  The `contents` of a
record is a rearrangement of the records of the children, where a child yields
no record exactly when it is a folder without children: every entry is the
record of a child that is a file or a folder with a child, every file child is
listed, and every child folder that has a child is listed. -/
theorem elision_of_childless_folders (orderByTime : Bool) (name : Option String)
    (path : String) (cs : List (String × Node)) (ts : Timestamp) :
    (getContentRecursive orderByTime name (.folder path cs ts) = none ↔ cs = []) ∧
    (cs ≠ [] → ∃ contents,
      getContentRecursive orderByTime name (.folder path cs ts)
        = some (.folder name path contents ts)) ∧
    (∀ n c, toRecord orderByTime n c = none ↔ ∃ p t, c = .folder p [] t) ∧
    (∀ r, getContentRecursive orderByTime name (.folder path cs ts) = some r →
      r.contents.Perm (cs.filterMap (fun e => toRecord orderByTime e.1 e.2)) ∧
      (∀ child ∈ r.contents, ∃ n c, (n, c) ∈ cs ∧ toRecord orderByTime n c = some child ∧
        ∀ p t, c ≠ .folder p [] t) ∧
      (∀ n p t sz, (n, Node.file p t sz) ∈ cs → Rec.file n p t ∈ r.contents) ∧
      (∀ n p sub t, (n, Node.folder p sub t) ∈ cs → sub ≠ [] →
        ∃ subContents, Rec.folder (some n) p subContents t ∈ r.contents)) := by
  have hfolder : ∀ (nm : Option String) (p : String) (l : List (String × Node))
      (t : Timestamp), l ≠ [] → ∃ contents,
      getContentRecursive orderByTime nm (.folder p l t) = some (.folder nm p contents t) := by
    intro nm p l t hl
    rw [getContentRecursive_folder]
    cases l with
    | nil => exact absurd rfl hl
    | cons e rest =>
      exact ⟨if orderByTime then jsSort compareFn (mapFilter orderByTime (e :: rest))
        else mapFilter orderByTime (e :: rest), by simp⟩
  have hnone : ∀ n c, toRecord orderByTime n c = none ↔ ∃ p t, c = Node.folder p [] t := by
    intro n c
    cases c with
    | file p t sz => simp [toRecord]
    | folder p l t =>
      cases l with
      | nil => simp [toRecord, getContentRecursive]
      | cons e rest => simp [toRecord, getContentRecursive]
  refine ⟨?_, hfolder name path cs ts, hnone, ?_⟩
  · rw [getContentRecursive_folder]
    cases cs <;> simp
  · intro r hr
    have hp : r.contents.Perm (cs.filterMap (fun e => toRecord orderByTime e.1 e.2)) := by
      rw [← mapFilter_eq_filterMap]
      exact record_contents_perm orderByTime name path cs ts r hr
    refine ⟨hp, ?_, ?_, ?_⟩
    · intro child hc
      have hm := hp.mem_iff.1 hc
      rw [List.mem_filterMap] at hm
      obtain ⟨⟨n, c⟩, hmem, hrec⟩ := hm
      refine ⟨n, c, hmem, hrec, ?_⟩
      intro p t hEq
      have := (hnone n c).2 ⟨p, t, hEq⟩
      rw [this] at hrec
      cases hrec
    · intro n p t sz hmem
      refine hp.mem_iff.2 (List.mem_filterMap.2 ⟨(n, .file p t sz), hmem, ?_⟩)
      simp [toRecord]
    · intro n p sub t hmem hsub
      obtain ⟨subContents, hsc⟩ := hfolder (some n) p sub t hsub
      refine ⟨subContents, hp.mem_iff.2 (List.mem_filterMap.2 ⟨(n, .folder p sub t), hmem, ?_⟩)⟩
      simpa [toRecord] using hsc

/-- Witness of the amended C1: folder `a`, which holds only the empty folder
`a/b`, is listed in the snapshot of the root. -/
theorem elision_of_childless_folders_witness :
    ∃ subContents, Rec.folder (some "a") "a" subContents none ∈
      (Rec.folder none "" [.folder (some "a") "a" [] none] none).contents :=
  ((elision_of_childless_folders true none ""
      [("a", .folder "a" [("b", .folder "a/b" [] none)] none)] none).2.2.2
    (.folder none "" [.folder (some "a") "a" [] none] none) rfl).2.2.2
    "a" "a" [("b", .folder "a/b" [] none)] none (by simp) (by simp)

/-- C3: with `orderByTime` enabled, the `contents` of the Folder record of any
folder is a permutation of the records of its visible children, descending by
timestamp, with every `null` timestamp after every non-null one. -/
theorem ordering_law (name : Option String) (path : String)
    (cs : List (String × Node)) (ts : Timestamp) (r : Rec)
    (h : getContentRecursive true name (.folder path cs ts) = some r) :
    r.contents.Perm (mapFilter true cs) ∧
    r.contents.Pairwise inTimeOrder ∧
    r.contents.Pairwise (fun a b => a.timestamp = none → b.timestamp = none) := by
  have hs : r.contents.Pairwise inTimeOrder := by
    rw [getContentRecursive_folder] at h
    split at h
    · cases h
    · simp only [if_true, Option.some.injEq] at h
      subst h
      exact jsSort_sorted _
  refine ⟨record_contents_perm true name path cs ts r h, hs, ?_⟩
  refine hs.imp ?_
  intro a b hab ha
  unfold inTimeOrder at hab
  rw [ha] at hab
  cases hb : b.timestamp with
  | none => rfl
  | some y => simp [hb] at hab

/-- Witness of C3: files A (300), B (100) and C (`null`) of one folder are
listed as A, B, C, whatever the enumeration order of the folder. -/
theorem ordering_law_witness :
    getContentRecursive true none
        (.folder "" [("C", .file "C" none 1), ("B", .file "B" (some (.fin 100)) 1),
          ("A", .file "A" (some (.fin 300)) 1)] none)
      = some (.folder none "" [.file "A" "A" (some (.fin 300)), .file "B" "B" (some (.fin 100)),
          .file "C" "C" none] none) ∧
    (Rec.folder none "" [.file "A" "A" (some (.fin 300)), .file "B" "B" (some (.fin 100)),
          .file "C" "C" none] none).contents.Pairwise inTimeOrder :=
  ⟨rfl, (ordering_law none ""
    [("C", .file "C" none 1), ("B", .file "B" (some (.fin 100)) 1),
      ("A", .file "A" (some (.fin 300)) 1)] none _ rfl).2.1⟩

theorem lookupKey_replaceKey_self (key : String) (v : Node) (cs : List (String × Node))
    (h : lookupKey cs key ≠ none) : lookupKey (replaceKey key v cs) key = some v := by
  induction cs with
  | nil => simp [lookupKey] at h
  | cons e rest ih =>
    obtain ⟨k, w⟩ := e
    by_cases hk : k = key
    · simp [replaceKey, lookupKey, hk]
    · simp only [lookupKey, hk, if_false] at h
      simp [replaceKey, lookupKey, hk, ih h]

theorem lookupKey_replaceKey_ne (key other : String) (v : Node) (cs : List (String × Node))
    (h : other ≠ key) : lookupKey (replaceKey key v cs) other = lookupKey cs other := by
  induction cs with
  | nil => rfl
  | cons e rest ih =>
    obtain ⟨k, w⟩ := e
    by_cases hk : k = key
    · subst hk
      have : ¬ k = other := fun h1 => h h1.symm
      simp [replaceKey, lookupKey, this]
    · by_cases hk2 : k = other
      · subst hk2
        simp [replaceKey, lookupKey, hk]
      · simp [replaceKey, lookupKey, hk, hk2, ih]

theorem lookupKey_insertIndexKey (i : Nat) (key other : String) (v : Node)
    (cs : List (String × Node)) (h : lookupKey cs key = none) :
    lookupKey (insertIndexKey i key v cs) other =
      if key = other then some v else lookupKey cs other := by
  induction cs with
  | nil => simp [insertIndexKey, lookupKey]
  | cons e rest ih =>
    obtain ⟨k, w⟩ := e
    have hk : ¬ k = key := by
      intro hk
      simp [lookupKey, hk] at h
    have hrest : lookupKey rest key = none := by
      simpa [lookupKey, hk] using h
    unfold insertIndexKey
    split
    · split
      · by_cases hko : k = other
        · have : ¬ key = other := fun h1 => hk (hko.trans h1.symm)
          simp [lookupKey, hko, this]
        · simp [lookupKey, hko, ih hrest]
      · simp [lookupKey]
    · simp [lookupKey]

theorem lookupKey_append (cs ds : List (String × Node)) (key : String) :
    lookupKey (cs ++ ds) key =
      match lookupKey cs key with
      | some v => some v
      | none => lookupKey ds key := by
  induction cs with
  | nil => simp [lookupKey]
  | cons e rest ih =>
    obtain ⟨k, w⟩ := e
    by_cases hk : k = key
    · simp [lookupKey, hk]
    · simp [lookupKey, hk, ih]

theorem lookupKey_setKey_self (key : String) (v : Node) (cs : List (String × Node)) :
    lookupKey (setKey key v cs) key = some v := by
  unfold setKey
  split
  · rename_i w hw
    exact lookupKey_replaceKey_self key v cs (by simp [hw])
  · rename_i hw
    split
    · simp [lookupKey_insertIndexKey _ _ _ _ _ hw]
    · simp [lookupKey_append, hw, lookupKey]

theorem lookupKey_setKey_ne (key other : String) (v : Node) (cs : List (String × Node))
    (h : other ≠ key) : lookupKey (setKey key v cs) other = lookupKey cs other := by
  have h1 : ¬ key = other := fun h1 => h h1.symm
  unfold setKey
  split
  · exact lookupKey_replaceKey_ne key other v cs h
  · rename_i hw
    split
    · simp [lookupKey_insertIndexKey _ _ _ _ _ hw, h1]
    · rw [lookupKey_append]
      cases lookupKey cs other <;> simp [lookupKey, h1]

theorem lookupKey_deleteKey_self (key : String) (cs : List (String × Node)) :
    lookupKey (deleteKey key cs) key = none := by
  induction cs with
  | nil => rfl
  | cons e rest ih =>
    obtain ⟨k, w⟩ := e
    by_cases hk : k = key
    · simp [deleteKey, hk, ih]
    · simp [deleteKey, lookupKey, hk, ih]

theorem lookupKey_deleteKey_ne (key other : String) (cs : List (String × Node))
    (h : other ≠ key) : lookupKey (deleteKey key cs) other = lookupKey cs other := by
  induction cs with
  | nil => rfl
  | cons e rest ih =>
    obtain ⟨k, w⟩ := e
    by_cases hk : k = key
    · subst hk
      have : ¬ k = other := fun h1 => h h1.symm
      simp [deleteKey, lookupKey, this, ih]
    · by_cases hk2 : k = other
      · subst hk2
        simp [deleteKey, lookupKey, hk]
      · simp [deleteKey, lookupKey, hk, hk2, ih]

theorem replaceKey_same (key : String) (v : Node) (cs : List (String × Node))
    (h : lookupKey cs key = some v) : replaceKey key v cs = cs := by
  induction cs with
  | nil => rfl
  | cons e rest ih =>
    obtain ⟨k, w⟩ := e
    by_cases hk : k = key
    · simp only [lookupKey, hk, if_true, Option.some.injEq] at h
      simp [replaceKey, hk, h]
    · simp only [lookupKey, hk, if_false] at h
      simp [replaceKey, hk, ih h]

theorem replaceKey_idem (key : String) (v : Node) (cs : List (String × Node)) :
    replaceKey key v (replaceKey key v cs) = replaceKey key v cs := by
  induction cs with
  | nil => rfl
  | cons e rest ih =>
    obtain ⟨k, w⟩ := e
    by_cases hk : k = key
    · simp [replaceKey, hk]
    · simp [replaceKey, hk, ih]

theorem deleteKey_absent (key : String) (cs : List (String × Node))
    (h : lookupKey cs key = none) : deleteKey key cs = cs := by
  induction cs with
  | nil => rfl
  | cons e rest ih =>
    obtain ⟨k, w⟩ := e
    by_cases hk : k = key
    · simp [lookupKey, hk] at h
    · simp only [lookupKey, hk, if_false] at h
      simp [deleteKey, hk, ih h]

theorem deleteKey_idem (key : String) (cs : List (String × Node)) :
    deleteKey key (deleteKey key cs) = deleteKey key cs :=
  deleteKey_absent key _ (lookupKey_deleteKey_self key cs)

theorem resolve_append (root : Node) (a b : List String) :
    resolve root (a ++ b) = (resolve root a).bind (fun n => resolve n b) := by
  induction a generalizing root with
  | nil => simp [resolve]
  | cons k ks ih =>
    cases root with
    | file p ts sz => simp [resolve]
    | folder p cs ts =>
      simp only [List.cons_append, resolve]
      cases lookupKey cs k with
      | none => simp
      | some child => simpa using ih child

theorem updateAt_ok (op : List (String × Node) → List (String × Node)) (root root1 : Node)
    (dirs : List String) (h : updateAt op root dirs = .ok root1) :
    ∃ p cs ts, resolve root dirs = some (.folder p cs ts) ∧
      resolve root1 dirs = some (.folder p (op cs) ts) := by
  induction dirs generalizing root root1 with
  | nil =>
    cases root with
    | file p ts sz => simp [updateAt] at h
    | folder p cs ts =>
      simp only [updateAt, Except.ok.injEq] at h
      subst h
      exact ⟨p, cs, ts, rfl, rfl⟩
  | cons k ks ih =>
    cases root with
    | file p ts sz => simp [updateAt] at h
    | folder p cs ts =>
      simp only [updateAt] at h
      cases hl : lookupKey cs k with
      | none => simp [hl] at h
      | some child =>
        simp only [hl] at h
        cases hu : updateAt op child ks with
        | error e => simp [hu] at h
        | ok child1 =>
          simp only [hu, Except.ok.injEq] at h
          subst h
          obtain ⟨p1, cs1, ts1, h1, h2⟩ := ih child child1 hu
          refine ⟨p1, cs1, ts1, ?_, ?_⟩
          · simp [resolve, hl, h1]
          · simp [resolve, lookupKey_replaceKey_self k child1 cs (by simp [hl]), h2]

theorem updateAt_of_resolve (op : List (String × Node) → List (String × Node)) (root : Node)
    (dirs : List String) (p : String) (cs : List (String × Node)) (ts : Timestamp)
    (h : resolve root dirs = some (.folder p cs ts)) :
    ∃ root1, updateAt op root dirs = .ok root1 := by
  induction dirs generalizing root with
  | nil =>
    simp only [resolve, Option.some.injEq] at h
    subst h
    exact ⟨_, rfl⟩
  | cons k ks ih =>
    cases root with
    | file p0 ts0 sz => simp [resolve] at h
    | folder p0 cs0 ts0 =>
      simp only [resolve] at h
      cases hl : lookupKey cs0 k with
      | none => simp [hl] at h
      | some child =>
        simp only [hl] at h
        obtain ⟨child1, hc⟩ := ih child h
        exact ⟨.folder p0 (replaceKey k child1 cs0) ts0, by simp [updateAt, hl, hc]⟩

theorem updateAt_error (op : List (String × Node) → List (String × Node)) (root : Node)
    (dirs : List String) (h : ∀ p cs ts, resolve root dirs ≠ some (.folder p cs ts)) :
    updateAt op root dirs = .error .typeError := by
  cases hu : updateAt op root dirs with
  | error e => cases e; rfl
  | ok root1 =>
    obtain ⟨p, cs, ts, h1, _⟩ := updateAt_ok op root root1 dirs hu
    exact absurd h1 (h p cs ts)

theorem resolve_none_of_take (root : Node) (dirs : List String) (k : Nat)
    (h : resolve root (dirs.take k) = none) : resolve root dirs = none := by
  have := resolve_append root (dirs.take k) (dirs.drop k)
  rw [List.take_append_drop, h] at this
  simpa using this

theorem splitChars_ne_nil (sep : Char) (cs : List Char) : splitChars sep cs ≠ [] := by
  cases cs with
  | nil => simp [splitChars]
  | cons c cs =>
    unfold splitChars
    split
    · simp
    · split <;> simp

theorem splitPath_ne_nil (pathStr : String) (h : pathStr ≠ "") : splitPath pathStr ≠ [] := by
  simp [splitPath, h, splitChars_ne_nil]

theorem splitPath_empty : splitPath "" = [] := by
  simp [splitPath]

theorem parts_eq (parts : List String) (h : parts ≠ []) :
    parts.dropLast ++ [lastPart parts] = parts := by
  rw [lastPart, List.getLast?_eq_getLast _ h]
  simpa using List.dropLast_append_getLast h

theorem updateAt_same (op : List (String × Node) → List (String × Node)) (root : Node)
    (dirs : List String) (p : String) (cs : List (String × Node)) (ts : Timestamp)
    (h : resolve root dirs = some (.folder p cs ts)) (hop : op cs = cs) :
    updateAt op root dirs = .ok root := by
  induction dirs generalizing root with
  | nil =>
    simp only [resolve, Option.some.injEq] at h
    subst h
    simp [updateAt, hop]
  | cons k ks ih =>
    cases root with
    | file p0 ts0 sz => simp [resolve] at h
    | folder p0 cs0 ts0 =>
      simp only [resolve] at h
      cases hl : lookupKey cs0 k with
      | none => simp [hl] at h
      | some child =>
        simp only [hl] at h
        simp [updateAt, hl, ih child h, replaceKey_same k child cs0 hl]

theorem updateAt_idem (op : List (String × Node) → List (String × Node))
    (hop : ∀ cs, op (op cs) = op cs) (root root1 : Node) (dirs : List String)
    (h : updateAt op root dirs = .ok root1) : updateAt op root1 dirs = .ok root1 := by
  obtain ⟨p, cs, ts, _, h2⟩ := updateAt_ok op root root1 dirs h
  exact updateAt_same op root1 dirs p (op cs) ts h2 (hop cs)

theorem updateAt_frame (op : List (String × Node) → List (String × Node)) (last : String)
    (hop : ∀ cs k, k ≠ last → lookupKey (op cs) k = lookupKey cs k)
    (root root1 : Node) (dirs : List String) (h : updateAt op root dirs = .ok root1)
    (q : List String) (h1 : ¬ (dirs ++ [last]) <+: q) (h2 : ¬ q <+: dirs) :
    resolve root1 q = resolve root q := by
  induction dirs generalizing root root1 q with
  | nil =>
    cases root with
    | file p ts sz => simp [updateAt] at h
    | folder p cs ts =>
      simp only [updateAt, Except.ok.injEq] at h
      subst h
      cases q with
      | nil => simp at h2
      | cons e qs =>
        have he : e ≠ last := by
          intro he
          apply h1
          subst he
          simp
        simp [resolve, hop cs e he]
  | cons d ds ih =>
    cases root with
    | file p ts sz => simp [updateAt] at h
    | folder p cs ts =>
      simp only [updateAt] at h
      cases hl : lookupKey cs d with
      | none => simp [hl] at h
      | some child =>
        simp only [hl] at h
        cases hu : updateAt op child ds with
        | error e => simp [hu] at h
        | ok child1 =>
          simp only [hu, Except.ok.injEq] at h
          subst h
          cases q with
          | nil => simp at h2
          | cons e qs =>
            by_cases he : e = d
            · subst he
              have h1a : ¬ (ds ++ [last]) <+: qs := by
                intro hp
                apply h1
                simpa [List.cons_prefix_cons] using hp
              have h2a : ¬ qs <+: ds := by
                intro hp
                apply h2
                simpa [List.cons_prefix_cons] using hp
              simp [resolve, hl, lookupKey_replaceKey_self e child1 cs (by simp [hl]),
                ih child child1 hu qs h1a h2a]
            · simp [resolve, lookupKey_replaceKey_ne d e child1 cs he]

theorem resolve_parent (root : Node) (parts : List String) (hne : parts ≠ []) (n : Node)
    (h : resolve root parts = some n) :
    ∃ p cs ts, resolve root parts.dropLast = some (.folder p cs ts) ∧
      lookupKey cs (lastPart parts) = some n := by
  have hp := resolve_append root parts.dropLast [lastPart parts]
  rw [parts_eq parts hne, h] at hp
  cases hd : resolve root parts.dropLast with
  | none => simp [hd] at hp
  | some parent =>
    cases parent with
    | file p ts sz => simp [hd, resolve] at hp
    | folder p cs ts =>
      refine ⟨p, cs, ts, rfl, ?_⟩
      simp only [hd, Option.some_bind, resolve] at hp
      cases hl : lookupKey cs (lastPart parts) with
      | none => simp [hl] at hp
      | some c => simpa [hl] using hp.symm

theorem resolve_child (root : Node) (parts : List String) (hne : parts ≠ []) (p : String)
    (cs : List (String × Node)) (ts : Timestamp)
    (h : resolve root parts.dropLast = some (.folder p cs ts)) :
    resolve root parts = lookupKey cs (lastPart parts) := by
  have hp := resolve_append root parts.dropLast [lastPart parts]
  rw [parts_eq parts hne, h] at hp
  rw [hp]
  simp only [Option.some_bind, resolve]
  cases lookupKey cs (lastPart parts) <;> rfl

/-- C6, as stated, fails: with no folder `a` in the mirror, adding the file
`a/f.txt` or the folder `a/b` throws a `TypeError`; nothing is created. -/
theorem missing_ancestor_throws :
    addFileToCache (.folder "" [] none) "a/f.txt" ⟨some 1, some 2, 3⟩ = .error .typeError ∧
    addFolderToCache (.folder "" [] none) "a/b" ⟨some 1, some 2, 3⟩ = .error .typeError :=
  ⟨rfl, rfl⟩

/-- C6 amended: when an intermediate ancestor of the path (its first `k`
components, `k` below the number of components) identifies no node of the
mirror, `addFolderToCache` and `addFileToCache` throw a `TypeError`, and the
`addDir`, `add` and `change` handlers leave the mirror as it was: no ancestor
is created and no node is inserted. -/
theorem missing_ancestor_not_repaired (root : Node) (pathStr : String) (stats : Stats)
    (k : Nat) (hk : k < (splitPath pathStr).length)
    (h : resolve root ((splitPath pathStr).take k) = none) :
    addFolderToCache root pathStr stats = .error .typeError ∧
    addFileToCache root pathStr stats = .error .typeError ∧
    ∀ s : State, s.rootContent = root →
      (handleEvent s (.addDir pathStr stats)).rootContent = root ∧
      (handleEvent s (.add pathStr stats)).rootContent = root ∧
      (handleEvent s (.change pathStr stats)).rootContent = root := by
  have hne : pathStr ≠ "" := by
    intro h0
    rw [h0, splitPath_empty] at hk
    simp at hk
  have htake : (splitPath pathStr).dropLast.take k = (splitPath pathStr).take k := by
    rw [List.dropLast_eq_take, List.take_take]
    congr 1
    omega
  have hdirs : resolve root (splitPath pathStr).dropLast = none :=
    resolve_none_of_take root _ k (by rw [htake]; exact h)
  have herr : ∀ op, updateAt op root (splitPath pathStr).dropLast = .error .typeError :=
    fun op => updateAt_error op root _ (by intro p cs ts; simp [hdirs])
  have h1 : addFolderToCache root pathStr stats = .error .typeError := by
    simp [addFolderToCache, hne, herr]
  have h2 : addFileToCache root pathStr stats = .error .typeError := by
    simp [addFileToCache, hne, herr]
  refine ⟨h1, h2, ?_⟩
  intro s hs
  subst hs
  simp [handleEvent, Event.mutate, invalidateOutputCache, h1, h2]

/-- Witness of the amended C6: the file `a/f.txt` arriving in the empty
mirror. -/
theorem missing_ancestor_not_repaired_witness :
    addFolderToCache (.folder "" [] none) "a/f.txt" ⟨some 1, some 2, 3⟩ = .error .typeError ∧
    addFileToCache (.folder "" [] none) "a/f.txt" ⟨some 1, some 2, 3⟩ = .error .typeError :=
  ⟨(missing_ancestor_not_repaired (.folder "" [] none) "a/f.txt" ⟨some 1, some 2, 3⟩ 1
      (by decide) rfl).1,
    (missing_ancestor_not_repaired (.folder "" [] none) "a/f.txt" ⟨some 1, some 2, 3⟩ 1
      (by decide) rfl).2.1⟩

/-- C7, as stated, fails: when an ancestor of the path is missing,
`removeFromCache` throws a `TypeError`. -/
theorem remove_under_missing_ancestor_throws :
    removeFromCache (.folder "" [] none) "a/b" = .error .typeError :=
  rfl

/-- C7 amended: when the parent of a non-root path is a folder of the mirror
and the path itself identifies no node, `removeFromCache` returns normally and
leaves the mirror unchanged; and whenever `removeFromCache` returns normally,
applying it a second time returns normally with the same mirror. -/
theorem remove_absent_noop (root : Node) (pathStr : String) (hne : pathStr ≠ "")
    (p : String) (cs : List (String × Node)) (ts : Timestamp)
    (hparent : resolve root (splitPath pathStr).dropLast = some (.folder p cs ts))
    (habsent : resolve root (splitPath pathStr) = none) :
    removeFromCache root pathStr = .ok root ∧
    ∀ (root0 root1 : Node) (q : String),
      removeFromCache root0 q = .ok root1 → removeFromCache root1 q = .ok root1 := by
  constructor
  · have hl : lookupKey cs (lastPart (splitPath pathStr)) = none := by
      rw [← resolve_child root _ (splitPath_ne_nil pathStr hne) p cs ts hparent]
      exact habsent
    simp only [removeFromCache, hne, if_false]
    exact updateAt_same _ root _ p cs ts hparent (deleteKey_absent _ cs hl)
  · intro root0 root1 q hq
    by_cases hq0 : q = ""
    · simp only [removeFromCache, hq0, if_true, Except.ok.injEq] at hq ⊢
    · simp only [removeFromCache, hq0, if_false] at hq ⊢
      exact updateAt_idem _ (deleteKey_idem _) root0 root1 _ hq

/-- Witness of the amended C7: removing `a/g` from a mirror that holds the
folder `a` with the single file `a/f`. -/
theorem remove_absent_noop_witness :
    removeFromCache (.folder "" [("a", .folder "a" [("f", .file "a/f" (some (.fin 1)) 1)] none)]
        none) "a/g"
      = .ok (.folder "" [("a", .folder "a" [("f", .file "a/f" (some (.fin 1)) 1)] none)] none) :=
  (remove_absent_noop
    (.folder "" [("a", .folder "a" [("f", .file "a/f" (some (.fin 1)) 1)] none)] none) "a/g"
    (by decide) "a" [("f", .file "a/f" (some (.fin 1)) 1)] none rfl rfl).1

theorem statsTimestamp_eq_max (stats : Stats) :
    (∀ c m, stats.ctimeMs = some c → stats.mtimeMs = some m →
      statsTimestamp stats = .fin (max c m)) ∧
    (∀ c, stats.ctimeMs = some c → stats.mtimeMs = none → statsTimestamp stats = .fin c) ∧
    (∀ m, stats.ctimeMs = none → stats.mtimeMs = some m → statsTimestamp stats = .fin m) := by
  obtain ⟨c, m, sz⟩ := stats
  refine ⟨?_, ?_, ?_⟩
  · intro c1 m1 hc hm
    simp only at hc hm
    subst hc hm
    simp [statsTimestamp, mathMax]
  · intro c1 hc hm
    simp only at hc hm
    subst hc hm
    simp [statsTimestamp, mathMax]
  · intro m1 hc hm
    simp only at hc hm
    subst hc hm
    simp [statsTimestamp, mathMax]

/-- C8: the code at the failing input.  With `ctimeMs` and `mtimeMs` both
`null`, the `add`, `change` and `addDir` handlers store `-Infinity` (the value
of `Math.max()` with no argument) as the timestamp of the node, where the rule
asks for `null`; the `change` handler does so on a file that had a timestamp. -/
theorem null_times_store_negInf :
    statsTimestamp ⟨none, none, 0⟩ = .negInf ∧
    (handleEvent (State.initial true) (.add "f" ⟨none, none, 0⟩)).rootContent
      = .folder "" [("f", .file "f" (some .negInf) 0)] none ∧
    (handleEvent (handleEvent (State.initial true) (.add "f" ⟨some 1, some 2, 0⟩))
        (.change "f" ⟨none, none, 5⟩)).rootContent
      = .folder "" [("f", .file "f" (some .negInf) 5)] none ∧
    (handleEvent (State.initial true) (.addDir "d" ⟨none, none, 0⟩)).rootContent
      = .folder "" [("d", .folder "d" [] (some .negInf))] none ∧
    (handleEvent (State.initial true) (.addDir "" ⟨none, none, 0⟩)).rootContent
      = .folder "" [] (some .negInf) ∧
    Node.timestamp (.file "f" (some .negInf) 0) ≠ none :=
  ⟨rfl, rfl, rfl, rfl, rfl, by simp [Node.timestamp]⟩

/-- C4, as stated, fails: the mirror holds folder `a` with the file `a/f`;
`addFolderToCache("a", stats)` leaves a folder `a` with no children. -/
theorem addFolder_drops_children :
    addFolderToCache
        (.folder "" [("a", .folder "a" [("f", .file "a/f" (some (.fin 1)) 1)] (some (.fin 1)))]
          none) "a" ⟨some 5, some 6, 0⟩
      = .ok (.folder "" [("a", .folder "a" [] (some (.fin 6)))] none) ∧
    resolve (.folder "" [("a", .folder "a" [("f", .file "a/f" (some (.fin 1)) 1)]
        (some (.fin 1)))] none) ["a", "f"] = some (.file "a/f" (some (.fin 1)) 1) ∧
    resolve (.folder "" [("a", .folder "a" [] (some (.fin 6)))] none) ["a", "f"] = none :=
  ⟨rfl, rfl, rfl⟩

/-- C4 amended: for a mirror that contains a folder at the non-root path `p`,
`addFolderToCache(p, stats)` returns normally and puts at `p` a folder with path
`p`, the new timestamp and an empty children mapping (the former subtree is
dropped); every path that is neither `p` or below it nor an ancestor of `p`
identifies the same node as before. -/
theorem addFolder_replaces_folder (root : Node) (pathStr : String) (stats : Stats)
    (hne : pathStr ≠ "") (p : String) (cs : List (String × Node)) (ts : Timestamp)
    (h : resolve root (splitPath pathStr) = some (.folder p cs ts)) :
    ∃ root1, addFolderToCache root pathStr stats = .ok root1 ∧
      resolve root1 (splitPath pathStr) =
        some (.folder pathStr [] (some (statsTimestamp stats))) ∧
      ∀ q, ¬ splitPath pathStr <+: q → ¬ q <+: splitPath pathStr →
        resolve root1 q = resolve root q := by
  have hparts := splitPath_ne_nil pathStr hne
  obtain ⟨pp, pcs, pts, hpar, _⟩ := resolve_parent root _ hparts _ h
  obtain ⟨root1, hu⟩ := updateAt_of_resolve
    (setKey (lastPart (splitPath pathStr)) (.folder pathStr [] (some (statsTimestamp stats))))
    root _ pp pcs pts hpar
  refine ⟨root1, by simp [addFolderToCache, hne, hu], ?_, ?_⟩
  · obtain ⟨p2, cs2, ts2, _, h2⟩ := updateAt_ok _ root root1 _ hu
    rw [resolve_child root1 _ hparts p2 _ ts2 h2]
    exact lookupKey_setKey_self _ _ cs2
  · intro q hq1 hq2
    refine updateAt_frame _ (lastPart (splitPath pathStr))
      (fun cs k hk => lookupKey_setKey_ne _ k _ cs hk) root root1 _ hu q ?_ ?_
    · rw [parts_eq _ hparts]
      exact hq1
    · intro hq
      apply hq2
      exact hq.trans (List.dropLast_prefix _)

/-- Witness of the amended C4: the folder `a` holding the file `a/f`. -/
theorem addFolder_replaces_folder_witness :
    ∃ root1, addFolderToCache
        (.folder "" [("a", .folder "a" [("f", .file "a/f" (some (.fin 1)) 1)] (some (.fin 1)))]
          none) "a" ⟨some 5, some 6, 0⟩ = .ok root1 ∧
      resolve root1 (splitPath "a") =
        some (.folder "a" [] (some (statsTimestamp ⟨some 5, some 6, 0⟩))) :=
  let ⟨root1, h1, h2, _⟩ := addFolder_replaces_folder
    (.folder "" [("a", .folder "a" [("f", .file "a/f" (some (.fin 1)) 1)] (some (.fin 1)))] none)
    "a" ⟨some 5, some 6, 0⟩ (by decide) "a" [("f", .file "a/f" (some (.fin 1)) 1)]
    (some (.fin 1)) rfl
  ⟨root1, h1, h2⟩

theorem updateAt_ok_folder (op : List (String × Node) → List (String × Node))
    (n n1 : Node) (ds : List String) (h : updateAt op n ds = .ok n1) :
    (∃ p cs ts, n = .folder p cs ts) ∧ (∃ p cs ts, n1 = .folder p cs ts) := by
  cases n with
  | file p ts sz => cases ds <;> simp [updateAt] at h
  | folder p cs ts =>
    refine ⟨⟨p, cs, ts, rfl⟩, ?_⟩
    cases ds with
    | nil =>
      simp only [updateAt, Except.ok.injEq] at h
      exact ⟨p, op cs, ts, h.symm⟩
    | cons k ks =>
      simp only [updateAt] at h
      split at h
      · simp at h
      · split at h
        · simp at h
        · simp only [Except.ok.injEq] at h
          exact ⟨_, _, _, h.symm⟩

theorem mapFilter_replaceKey (obt : Bool) (key : String) (old v : Node)
    (cs : List (String × Node)) (hl : lookupKey cs key = some old)
    (hv : toRecord obt key v = toRecord obt key old) :
    mapFilter obt (replaceKey key v cs) = mapFilter obt cs := by
  simp only [mapFilter_eq_filterMap]
  induction cs with
  | nil => rfl
  | cons e rest ih =>
    obtain ⟨k, w⟩ := e
    by_cases hk : k = key
    · subst hk
      simp only [lookupKey, if_true, Option.some.injEq] at hl
      subst hl
      simp [replaceKey, List.filterMap_cons, hv]
    · simp only [lookupKey, hk, if_false] at hl
      simp [replaceKey, hk, List.filterMap_cons, ih hl]

theorem mapFilter_insertIndexKey (obt : Bool) (i : Nat) (key : String) (v : Node)
    (cs : List (String × Node)) (hv : toRecord obt key v = none) :
    mapFilter obt (insertIndexKey i key v cs) = mapFilter obt cs := by
  simp only [mapFilter_eq_filterMap]
  induction cs with
  | nil => simp [insertIndexKey, hv]
  | cons e rest ih =>
    obtain ⟨k, w⟩ := e
    unfold insertIndexKey
    split
    · split
      · simp [List.filterMap_cons, ih]
      · simp [List.filterMap_cons, hv]
    · simp [List.filterMap_cons, hv]

theorem mapFilter_setKey (obt : Bool) (key : String) (v : Node) (cs : List (String × Node))
    (hv : toRecord obt key v = none)
    (hold : ∀ old, lookupKey cs key = some old → toRecord obt key old = none) :
    mapFilter obt (setKey key v cs) = mapFilter obt cs := by
  unfold setKey
  split
  · rename_i old hl
    exact mapFilter_replaceKey obt key old v cs hl (by rw [hv, hold old hl])
  · split
    · exact mapFilter_insertIndexKey obt _ key v cs hv
    · simp [mapFilter_eq_filterMap, hv]

theorem lookupKey_of_not_mem (key : String) (cs : List (String × Node))
    (h : key ∉ cs.map Prod.fst) : lookupKey cs key = none := by
  induction cs with
  | nil => rfl
  | cons e rest ih =>
    obtain ⟨k, w⟩ := e
    simp only [List.map_cons, List.mem_cons, not_or] at h
    have hk : ¬ k = key := fun h1 => h.1 h1.symm
    simp [lookupKey, hk, ih h.2]

theorem mapFilter_deleteKey (obt : Bool) (key : String) (cs : List (String × Node))
    (hkeys : (cs.map Prod.fst).Nodup)
    (hold : ∀ old, lookupKey cs key = some old → toRecord obt key old = none) :
    mapFilter obt (deleteKey key cs) = mapFilter obt cs := by
  simp only [mapFilter_eq_filterMap]
  induction cs with
  | nil => rfl
  | cons e rest ih =>
    obtain ⟨k, w⟩ := e
    simp only [List.map_cons, List.nodup_cons] at hkeys
    by_cases hk : k = key
    · subst hk
      have hw : toRecord obt k w = none := hold w (by simp [lookupKey])
      simp [deleteKey, List.filterMap_cons, hw,
        deleteKey_absent k rest (lookupKey_of_not_mem k rest hkeys.1)]
    · have hold1 : ∀ old, lookupKey rest key = some old → toRecord obt key old = none := by
        intro old ho
        exact hold old (by simp [lookupKey, hk, ho])
      simp [deleteKey, hk, List.filterMap_cons, ih hkeys.2 hold1]

theorem snapshot_updateAt (obt : Bool) (op : List (String × Node) → List (String × Node))
    (root root1 : Node) (dirs : List String) (h : updateAt op root dirs = .ok root1)
    (hop : ∀ p cs ts, resolve root dirs = some (.folder p cs ts) →
      mapFilter obt (op cs) = mapFilter obt cs ∧ ((op cs).isEmpty = cs.isEmpty)) :
    ∀ name, getContentRecursive obt name root1 = getContentRecursive obt name root := by
  induction dirs generalizing root root1 with
  | nil =>
    cases root with
    | file p ts sz => simp [updateAt] at h
    | folder p cs ts =>
      simp only [updateAt, Except.ok.injEq] at h
      subst h
      intro name
      obtain ⟨h1, h2⟩ := hop p cs ts rfl
      rw [getContentRecursive_folder, getContentRecursive_folder, h1, h2]
  | cons d ds ih =>
    cases root with
    | file p ts sz => simp [updateAt] at h
    | folder p cs ts =>
      simp only [updateAt] at h
      cases hl : lookupKey cs d with
      | none => simp [hl] at h
      | some child =>
        simp only [hl] at h
        cases hu : updateAt op child ds with
        | error e => simp [hu] at h
        | ok child1 =>
          simp only [hu, Except.ok.injEq] at h
          subst h
          have hchild := ih child child1 hu (by
            intro p1 cs1 ts1 hr
            exact hop p1 cs1 ts1 (by simp [resolve, hl, hr]))
          obtain ⟨⟨pa, csa, tsa, ha⟩, ⟨pb, csb, tsb, hb⟩⟩ := updateAt_ok_folder op child child1 ds hu
          have hrec : toRecord obt d child1 = toRecord obt d child := by
            rw [ha, hb]
            simp only [toRecord]
            rw [← ha, ← hb]
            exact hchild (some d)
          intro name
          have hempty : (replaceKey d child1 cs).isEmpty = cs.isEmpty := by
            cases cs with
            | nil => rfl
            | cons e rest =>
              obtain ⟨k, w⟩ := e
              by_cases hk : k = d <;> simp [replaceKey, hk]
          rw [getContentRecursive_folder, getContentRecursive_folder,
            mapFilter_replaceKey obt d child child1 cs hl hrec, hempty]

/-- C5, as stated, fails: the mirror holds the file `f` and the empty folder
`a`; the event `addDir a/b` is confined to the subtree of `a`, which contains
no file before or after it, and yet the next `prepContentOutput` returns a
snapshot that now lists a Folder record for `a`. -/
theorem empty_subtree_mutation_changes_snapshot :
    Node.hasFile (.folder "a" [] (some (.fin 2))) = false ∧
    Node.hasFile (.folder "a" [("b", .folder "a/b" [] (some (.fin 2)))] (some (.fin 2))) = false ∧
    (prepContentOutput (fun _ => "d") (run (fun _ => "d") (State.initial true)
        [.event .ready, .event (.add "f" ⟨some 1, some 2, 3⟩),
          .event (.addDir "a" ⟨some 1, some 2, 0⟩)])).2.1
      = some (.folder none "" [.file "f" "f" (some (.fin 2))] none) ∧
    (prepContentOutput (fun _ => "d") (run (fun _ => "d") (State.initial true)
        [.event .ready, .event (.add "f" ⟨some 1, some 2, 3⟩),
          .event (.addDir "a" ⟨some 1, some 2, 0⟩), .prep,
          .event (.addDir "a/b" ⟨some 1, some 2, 0⟩)])).2.1
      = some (.folder none "" [.file "f" "f" (some (.fin 2)),
          .folder (some "a") "a" [] (some (.fin 2))] none) ∧
    (Rec.folder none "" [.file "f" "f" (some (.fin 2))] none) ≠
      (Rec.folder none "" [.file "f" "f" (some (.fin 2)),
          .folder (some "a") "a" [] (some (.fin 2))] none) :=
  ⟨rfl, rfl, rfl, rfl, by simp⟩

/-- C5 amended: let the parent of a non-root path be a folder of the mirror
(with unique keys) that has some child under another name, and let the path
itself identify nothing or a folder without children.  Then `addFolderToCache`
and `removeFromCache` at that path return normally and the snapshot of the
mirror, hence its digest, is the same after either of them as before. -/
theorem childless_folder_mutation_keeps_snapshot (orderByTime : Bool) (root : Node)
    (pathStr : String) (stats : Stats) (hne : pathStr ≠ "")
    (p : String) (cs : List (String × Node)) (ts : Timestamp)
    (hparent : resolve root (splitPath pathStr).dropLast = some (.folder p cs ts))
    (hkeys : (cs.map Prod.fst).Nodup)
    (hother : ∃ k, k ≠ lastPart (splitPath pathStr) ∧ lookupKey cs k ≠ none)
    (htarget : resolve root (splitPath pathStr) = none ∨
      ∃ p1 ts1, resolve root (splitPath pathStr) = some (.folder p1 [] ts1)) :
    ∃ r1 r2, addFolderToCache root pathStr stats = .ok r1 ∧
      removeFromCache root pathStr = .ok r2 ∧
      getContentRecursive orderByTime none r1 = getContentRecursive orderByTime none root ∧
      getContentRecursive orderByTime none r2 = getContentRecursive orderByTime none root ∧
      ∀ digest : Option Rec → String,
        digest (getContentRecursive orderByTime none r1) =
          digest (getContentRecursive orderByTime none root) ∧
        digest (getContentRecursive orderByTime none r2) =
          digest (getContentRecursive orderByTime none root) := by
  have hparts := splitPath_ne_nil pathStr hne
  obtain ⟨k, hk, hkl⟩ := hother
  have hcs : cs.isEmpty = false := by
    cases cs with
    | nil => simp [lookupKey] at hkl
    | cons e rest => rfl
  have hold : ∀ old, lookupKey cs (lastPart (splitPath pathStr)) = some old →
      toRecord orderByTime (lastPart (splitPath pathStr)) old = none := by
    intro old ho
    rw [resolve_child root _ hparts p cs ts hparent, ho] at htarget
    rcases htarget with h0 | ⟨p1, ts1, h1⟩
    · cases h0
    · simp only [Option.some.injEq] at h1
      subst h1
      simp [toRecord, getContentRecursive]
  obtain ⟨r1, h1⟩ := updateAt_of_resolve
    (setKey (lastPart (splitPath pathStr)) (.folder pathStr [] (some (statsTimestamp stats))))
    root _ p cs ts hparent
  obtain ⟨r2, h2⟩ := updateAt_of_resolve (deleteKey (lastPart (splitPath pathStr)))
    root _ p cs ts hparent
  have e1 : ∀ name, getContentRecursive orderByTime name r1 =
      getContentRecursive orderByTime name root := by
    refine snapshot_updateAt orderByTime _ root r1 _ h1 ?_
    intro p0 cs0 ts0 hr
    rw [hparent] at hr
    simp only [Option.some.injEq, Node.folder.injEq] at hr
    obtain ⟨_, hcs0, _⟩ := hr
    subst hcs0
    refine ⟨mapFilter_setKey orderByTime _ _ cs (by simp [toRecord, getContentRecursive])
      hold, ?_⟩
    rw [hcs]
    have := lookupKey_setKey_self (lastPart (splitPath pathStr))
      (.folder pathStr [] (some (statsTimestamp stats))) cs
    cases hs : setKey (lastPart (splitPath pathStr))
        (.folder pathStr [] (some (statsTimestamp stats))) cs with
    | nil => simp [hs, lookupKey] at this
    | cons e rest => rfl
  have e2 : ∀ name, getContentRecursive orderByTime name r2 =
      getContentRecursive orderByTime name root := by
    refine snapshot_updateAt orderByTime _ root r2 _ h2 ?_
    intro p0 cs0 ts0 hr
    rw [hparent] at hr
    simp only [Option.some.injEq, Node.folder.injEq] at hr
    obtain ⟨_, hcs0, _⟩ := hr
    subst hcs0
    refine ⟨mapFilter_deleteKey orderByTime _ cs hkeys hold, ?_⟩
    rw [hcs]
    have := lookupKey_deleteKey_ne (lastPart (splitPath pathStr)) k cs hk
    cases hs : deleteKey (lastPart (splitPath pathStr)) cs with
    | nil =>
      rw [hs] at this
      simp [lookupKey] at this
      exact absurd this.symm hkl
    | cons e rest => rfl
  refine ⟨r1, r2, by simp [addFolderToCache, hne, h1], by simp [removeFromCache, hne, h2],
    e1 none, e2 none, ?_⟩
  intro digest
  rw [e1 none, e2 none]
  exact ⟨rfl, rfl⟩

/-- Witness of the amended C5: the folder `a` holds the file `a/f` and the
empty folder `a/b`; adding or removing `a/b` leaves the snapshot as it was. -/
theorem childless_folder_mutation_keeps_snapshot_witness :
    ∃ r1 r2,
      addFolderToCache (.folder "" [("a", .folder "a" [("f", .file "a/f" (some (.fin 1)) 1),
        ("b", .folder "a/b" [] none)] none)] none) "a/b" ⟨some 5, some 6, 0⟩ = .ok r1 ∧
      removeFromCache (.folder "" [("a", .folder "a" [("f", .file "a/f" (some (.fin 1)) 1),
        ("b", .folder "a/b" [] none)] none)] none) "a/b" = .ok r2 ∧
      getContentRecursive true none r1 = getContentRecursive true none
        (.folder "" [("a", .folder "a" [("f", .file "a/f" (some (.fin 1)) 1),
          ("b", .folder "a/b" [] none)] none)] none) ∧
      getContentRecursive true none r2 = getContentRecursive true none
        (.folder "" [("a", .folder "a" [("f", .file "a/f" (some (.fin 1)) 1),
          ("b", .folder "a/b" [] none)] none)] none) :=
  let ⟨r1, r2, h1, h2, h3, h4, _⟩ := childless_folder_mutation_keeps_snapshot true
    (.folder "" [("a", .folder "a" [("f", .file "a/f" (some (.fin 1)) 1),
      ("b", .folder "a/b" [] none)] none)] none) "a/b" ⟨some 5, some 6, 0⟩ (by decide)
    "a" [("f", .file "a/f" (some (.fin 1)) 1), ("b", .folder "a/b" [] none)] none rfl
    (by decide) ⟨"f", by decide, by simp [lookupKey]⟩ (Or.inr ⟨"a/b", none, rfl⟩)
  ⟨r1, r2, h1, h2, h3, h4⟩

/-- C10: the guard of the `/delete/:filename` handler passes for the file name
`../files2/x` under the files folder `/srv/app/files`, and the handler unlinks
`/srv/app/files2/x`, a path in a sibling directory and not inside the files
folder. -/
theorem delete_guard_admits_sibling_directory :
    deleteTarget true "/srv/app/files" "../files2/x" = some "/srv/app/files2/x" ∧
    pathJoin ["/srv/app/files", "../files2/x"] ≠ "/srv/app/files" ∧
    startsWith (pathJoin ["/srv/app/files", "../files2/x"]) "/srv/app/files" = true ∧
    liesStrictlyInside "/srv/app/files" "/srv/app/files2/x" = false :=
  ⟨by decide, by decide, by decide, by decide⟩

end LiveCache
